import Mathlib

/-
Shallow embedding of the deep-merge engine of this repository:
deepClone (src/src/inliner.ts, common utilities section) and
mergeConfig (src/unnamed/part_003).

Values are modelled by the inductive type Val, covering the data model of
the configuration domain: primitives (string, number, boolean, null,
undefined), dates, key-value maps (Map), deduplicated sequences (Set),
sequences (Array) and plain composites (objects with string keys in
insertion order).  Every heap-allocated value (date, array, map, set,
object) carries an identity tag id : Nat standing for its allocation
identity: two containers alias exactly when they carry the same id.
Fresh allocations draw ids from a counter threaded through the functions,
so a call with counter c only allocates ids that are at least c.
Numbers are modelled by Int (the claims under study never depend on
fractional or IEEE behaviour).
-/

inductive Val : Type where
  | undefV : Val
  | null : Val
  | boolV (b : Bool) : Val
  | numV (n : Int) : Val
  | strV (s : String) : Val
  | dateV (id : Nat) (time : Int) : Val
  | arrV (id : Nat) (elems : List Val) : Val
  | mapV (id : Nat) (entries : List (Val × Val)) : Val
  | setV (id : Nat) (elems : List Val) : Val
  | objV (id : Nat) (fields : List (String × Val)) : Val

/-- True exactly when the JavaScript expression typeof v === "object" is
true: for null and for every heap object (date, array, map, set, plain
object). -/
def typeofObject : Val → Bool
  | .null => true
  | .dateV _ _ => true
  | .arrV _ _ => true
  | .mapV _ _ => true
  | .setV _ _ => true
  | .objV _ _ => true
  | _ => false

/-- Array.isArray. -/
def isArray : Val → Bool
  | .arrV _ _ => true
  | _ => false

/-- The value is the JavaScript undefined. -/
def isUndefV : Val → Bool
  | .undefV => true
  | _ => false

/-- The value is the JavaScript null. -/
def isNull : Val → Bool
  | .null => true
  | _ => false

/-- First binding of a key in an association list of object fields
(JavaScript objects have no duplicate own keys, so on well-formed field
lists this is the binding). -/
def lookupField : List (String × Val) → String → Option Val
  | [], _ => none
  | (k, v) :: rest, key => if k = key then some v else lookupField rest key

/-- Property read target[key]: on a plain object the stored field,
undefined when the key is missing; on every other value undefined.  (Reads
of numeric indices of arrays or of prototype members of Map, Set and Date
objects fall outside the configuration data model of the spec and are not
modelled.) -/
def getProp (v : Val) (key : String) : Val :=
  match v with
  | .objV _ fs => (lookupField fs key).getD .undefV
  | _ => .undefV

/-- JavaScript property write on a field list: an existing key keeps its
position and gets the new value, a new key is appended. -/
def setField : List (String × Val) → String → Val → List (String × Val)
  | [], key, x => [(key, x)]
  | (k, v) :: rest, key, x =>
      if k = key then (k, x) :: rest else (k, v) :: setField rest key x

/-- Property write target[key] = x.  It succeeds only on plain objects;
on a primitive the corresponding JavaScript assignment throws a TypeError
in strict mode, and expando properties on arrays, maps, sets and dates
fall outside the configuration data model of the spec, so both are
modelled as failure (none). -/
def setProp (v : Val) (key : String) (x : Val) : Option Val :=
  match v with
  | .objV i fs => some (.objV i (setField fs key x))
  | _ => none

mutual
/-- Shallow embedding of deepClone from the source: primitives returned
unchanged, dates rebuilt with the same instant, Map and Set copied into a
new instance whose entries/elements are the same values (shallow, exactly
as the source writes new Map(Array.from(obj.entries())) and
new Set(Array.from(obj.values()))), arrays and plain objects copied with
every element / own field value recursively cloned.  The Nat argument is
the allocation counter: every container built here takes a fresh id. -/
def deepClone : Val → Nat → Val × Nat
  | .undefV, c => (.undefV, c)
  | .null, c => (.null, c)
  | .boolV b, c => (.boolV b, c)
  | .numV n, c => (.numV n, c)
  | .strV s, c => (.strV s, c)
  | .dateV _ t, c => (.dateV c t, c + 1)
  | .mapV _ es, c => (.mapV c es, c + 1)
  | .setV _ xs, c => (.setV c xs, c + 1)
  | .arrV _ xs, c =>
      let p := deepCloneList xs c
      (.arrV p.2 p.1, p.2 + 1)
  | .objV _ fs, c =>
      let p := deepCloneFields fs c
      (.objV p.2 p.1, p.2 + 1)
termination_by structural v => v

/-- deepClone mapped over the elements of an array, threading the
allocation counter. -/
def deepCloneList : List Val → Nat → List Val × Nat
  | [], c => ([], c)
  | v :: rest, c =>
      let p := deepClone v c
      let q := deepCloneList rest p.2
      (p.1 :: q.1, q.2)
termination_by structural xs => xs

/-- deepClone mapped over the own fields of a plain object, threading the
allocation counter. -/
def deepCloneFields : List (String × Val) → Nat → List (String × Val) × Nat
  | [], c => ([], c)
  | (k, v) :: rest, c =>
      let p := deepClone v c
      let q := deepCloneFields rest p.2
      ((k, p.1) :: q.1, q.2)
termination_by structural fs => fs
end

mutual
/-- Erase all identity tags (set them to 0).  Two values are deep-equal
exactly when their erasures are equal. -/
def erase : Val → Val
  | .dateV _ t => .dateV 0 t
  | .arrV _ xs => .arrV 0 (eraseList xs)
  | .mapV _ es => .mapV 0 (eraseEntries es)
  | .setV _ xs => .setV 0 (eraseList xs)
  | .objV _ fs => .objV 0 (eraseFields fs)
  | v => v
termination_by structural v => v

/-- erase mapped over a list of values. -/
def eraseList : List Val → List Val
  | [] => []
  | v :: rest => erase v :: eraseList rest
termination_by structural xs => xs

/-- erase mapped over map entries (keys and values). -/
def eraseEntries : List (Val × Val) → List (Val × Val)
  | [] => []
  | (k, v) :: rest => (erase k, erase v) :: eraseEntries rest
termination_by structural es => es

/-- erase mapped over object fields. -/
def eraseFields : List (String × Val) → List (String × Val)
  | [] => []
  | (k, v) :: rest => (k, erase v) :: eraseFields rest
termination_by structural fs => fs
end

mutual
/-- All identity tags reachable in a value, including those inside Map
and Set entries. -/
def deepIds : Val → List Nat
  | .dateV i _ => [i]
  | .arrV i xs => i :: deepIdsList xs
  | .mapV i es => i :: deepIdsEntries es
  | .setV i xs => i :: deepIdsList xs
  | .objV i fs => i :: deepIdsFields fs
  | _ => []
termination_by structural v => v

/-- deepIds over a list of values. -/
def deepIdsList : List Val → List Nat
  | [] => []
  | v :: rest => deepIds v ++ deepIdsList rest
termination_by structural xs => xs

/-- deepIds over map entries. -/
def deepIdsEntries : List (Val × Val) → List Nat
  | [] => []
  | (k, v) :: rest => deepIds k ++ deepIds v ++ deepIdsEntries rest
termination_by structural es => es

/-- deepIds over object fields. -/
def deepIdsFields : List (String × Val) → List Nat
  | [] => []
  | (_, v) :: rest => deepIds v ++ deepIdsFields rest
termination_by structural fs => fs
end

mutual
/-- Identity tags reachable without passing through the entries of a Map
or the elements of a Set: the containers a deep clone is expected to
refresh (Map and Set contents are copied shallowly by deepClone). -/
def shallowIds : Val → List Nat
  | .dateV i _ => [i]
  | .arrV i xs => i :: shallowIdsList xs
  | .mapV i _ => [i]
  | .setV i _ => [i]
  | .objV i fs => i :: shallowIdsFields fs
  | _ => []
termination_by structural v => v

/-- shallowIds over a list of values. -/
def shallowIdsList : List Val → List Nat
  | [] => []
  | v :: rest => shallowIds v ++ shallowIdsList rest
termination_by structural xs => xs

/-- shallowIds over object fields. -/
def shallowIdsFields : List (String × Val) → List Nat
  | [] => []
  | (_, v) :: rest => shallowIds v ++ shallowIdsFields rest
termination_by structural fs => fs
end

/-- Every identity tag in the value is below the bound c (so a counter
starting at c only allocates ids the value does not use). -/
def idsBelow (v : Val) (c : Nat) : Bool :=
  (deepIds v).all (fun i => decide (i < c))

/-- Identity tag of the top container of a value, none for primitives. -/
def topId : Val → Option Nat
  | .dateV i _ => some i
  | .arrV i _ => some i
  | .mapV i _ => some i
  | .setV i _ => some i
  | .objV i _ => some i
  | _ => none

/-- The three recognized strategy strings of the source. -/
def safeS : String := "safe"

/-- Strategy string for wholesale replacement. -/
def replaceS : String := "replace"

/-- Strategy string for explicit recursive merge. -/
def mergeS : String := "merge"

/-- The options argument of mergeConfig: a table from dot-joined paths to
strategy strings.  Strategy strings are arbitrary, as in the source,
where the table is a plain record that may hold unrecognized values. -/
def MergeOptions : Type := String → Option String

/-- Dotted path join of the source: path ? path + "." + key : key. -/
def pathJoin (path key : String) : String :=
  if path = "" then key else path ++ "." ++ key

/-- One assignment target[key] = deepClone(sourceValue), as performed by
the replace branch and the default branch of the merge loop. -/
def writeClone (target : Val) (key : String) (sourceValue : Val) (c : Nat) :
    Option (Val × Nat) :=
  let p := deepClone sourceValue c
  match setProp target key p.1 with
  | some t => some (t, p.2)
  | none => none

mutual
/-- Shallow embedding of the internal recursive merge function of
mergeConfig.  The source returns early when typeof source !== "object",
source === null, or Array.isArray(source); otherwise it walks
Object.keys(source).  Date, Map and Set instances pass the typeof guard
but expose no own enumerable keys, so for every non-plain-object source
the walk is empty and the target is returned unchanged. -/
def merge (target source : Val) (path : String) (tbl : MergeOptions)
    (c : Nat) : Option (Val × Nat) :=
  match source with
  | .objV _ fs => mergeFields target fs path tbl c
  | _ => some (target, c)
termination_by structural source

/-- The for-loop body of merge over the own keys of the source, in order.
Each step mirrors the decision chain of the source: safe-skip,
default-undefined-skip, replace (explicit strategy or array source),
recursive merge of object into object, and default clone-assign. -/
def mergeFields (target : Val) (fields : List (String × Val))
    (path : String) (tbl : MergeOptions) (c : Nat) : Option (Val × Nat) :=
  match fields with
  | [] => some (target, c)
  | (key, sourceValue) :: rest =>
      let currentPath := pathJoin path key
      let strategy := tbl currentPath
      let targetValue := getProp target key
      if strategy = some safeS ∧ isUndefV sourceValue = true then
        mergeFields target rest path tbl c
      else if strategy = none ∧ typeofObject sourceValue = false ∧
          isUndefV sourceValue = true then
        mergeFields target rest path tbl c
      else if strategy = some replaceS ∨ isArray sourceValue = true then
        match writeClone target key sourceValue c with
        | some r => mergeFields r.1 rest path tbl r.2
        | none => none
      else if typeofObject sourceValue = true ∧ isNull sourceValue = false ∧
          typeofObject targetValue = true ∧ isNull targetValue = false then
        match merge targetValue sourceValue currentPath tbl c with
        | some q =>
            match setProp target key q.1 with
            | some t => mergeFields t rest path tbl q.2
            | none => none
        | none => none
      else
        match writeClone target key sourceValue c with
        | some r => mergeFields r.1 rest path tbl r.2
        | none => none
termination_by structural fields
end

/-- Shallow embedding of mergeConfig: deep-clone the base configuration,
then run the recursive merge of the override into the clone, starting at
the empty path.  The allocation counter c plays the role of the heap
allocator; the result is none exactly when a property write lands on a
value outside the plain-object domain (a strict-mode TypeError or an
expando write, see setProp). -/
def mergeConfig (config newConfig : Val) (options : MergeOptions)
    (c : Nat) : Option (Val × Nat) :=
  let p := deepClone config c
  merge p.1 newConfig "" options p.2

/-- A strategy string the source recognizes: merge, replace or safe. -/
def recognizedB (s : String) : Bool :=
  decide (s = mergeS) || decide (s = replaceS) || decide (s = safeS)

/-- The table entry at this path exists but carries an unrecognized
strategy string. -/
def malformedB (tbl : MergeOptions) (p : String) : Bool :=
  match tbl p with
  | some s => !(recognizedB s)
  | none => false

/-- The strategy table with every malformed entry removed. -/
def sanitize (tbl : MergeOptions) : MergeOptions := fun p =>
  match tbl p with
  | some s => if recognizedB s = true then some s else none
  | none => none

mutual
/-- Guard for the table-sanitizing equivalence: along the walked object
spine of the override, every key whose dotted path carries a malformed
table entry holds a value other than undefined.  (At such a key the
original code fails the strategy-is-absent test and assigns undefined,
while the sanitized table skips it, so undefined values at malformed
paths are the exact divergence points.) -/
def strategyOk (tbl : MergeOptions) (path : String) : Val → Bool
  | .objV _ fs => strategyOkFields tbl path fs
  | _ => true
termination_by structural v => v

/-- Field-list form of the guard. -/
def strategyOkFields (tbl : MergeOptions) (path : String) :
    List (String × Val) → Bool
  | [] => true
  | (k, v) :: rest =>
      (!(malformedB tbl (pathJoin path k)) || !(isUndefV v)) &&
      strategyOk tbl (pathJoin path k) v &&
      strategyOkFields tbl path rest
termination_by structural fs => fs
end

/-- Own enumerable string keys of a value: the field names of a plain
object, nothing for every other value (Date, Map and Set instances keep
their data in internal slots, not own enumerable properties). -/
def ownKeys : Val → List String
  | .objV _ fs => fs.map Prod.fst
  | _ => []

mutual
/-- The allocation counter never decreases during a clone. -/
theorem deepClone_c_le : ∀ (v : Val) (c : Nat), c ≤ (deepClone v c).2
  | .undefV, c => Nat.le_refl c
  | .null, c => Nat.le_refl c
  | .boolV _, c => Nat.le_refl c
  | .numV _, c => Nat.le_refl c
  | .strV _, c => Nat.le_refl c
  | .dateV _ _, c => Nat.le_succ c
  | .mapV _ _, c => Nat.le_succ c
  | .setV _ _, c => Nat.le_succ c
  | .arrV _ xs, c => by
      have h := deepCloneList_c_le xs c
      simp only [deepClone]
      omega
  | .objV _ fs, c => by
      have h := deepCloneFields_c_le fs c
      simp only [deepClone]
      omega
termination_by structural v => v

/-- Counter monotonicity for the array-element clone. -/
theorem deepCloneList_c_le : ∀ (xs : List Val) (c : Nat),
    c ≤ (deepCloneList xs c).2
  | [], c => Nat.le_refl c
  | v :: rest, c => by
      have h1 := deepClone_c_le v c
      have h2 := deepCloneList_c_le rest (deepClone v c).2
      simp only [deepCloneList]
      omega
termination_by structural xs => xs

/-- Counter monotonicity for the field clone. -/
theorem deepCloneFields_c_le : ∀ (fs : List (String × Val)) (c : Nat),
    c ≤ (deepCloneFields fs c).2
  | [], c => Nat.le_refl c
  | (_, v) :: rest, c => by
      have h1 := deepClone_c_le v c
      have h2 := deepCloneFields_c_le rest (deepClone v c).2
      simp only [deepCloneFields]
      omega
termination_by structural fs => fs
end

mutual
/-- A clone is deep-equal to the original: erasing identity tags gives
the same value (Map and Set entries are kept verbatim, so this holds for
them directly). -/
theorem erase_deepClone : ∀ (v : Val) (c : Nat),
    erase (deepClone v c).1 = erase v
  | .undefV, _ => rfl
  | .null, _ => rfl
  | .boolV _, _ => rfl
  | .numV _, _ => rfl
  | .strV _, _ => rfl
  | .dateV _ _, _ => rfl
  | .mapV _ _, _ => rfl
  | .setV _ _, _ => rfl
  | .arrV _ xs, c => by
      simp only [deepClone, erase, eraseList_deepCloneList xs c]
  | .objV _ fs, c => by
      simp only [deepClone, erase, eraseFields_deepCloneFields fs c]
termination_by structural v => v

/-- Element-wise erasure equality for the array clone. -/
theorem eraseList_deepCloneList : ∀ (xs : List Val) (c : Nat),
    eraseList (deepCloneList xs c).1 = eraseList xs
  | [], _ => rfl
  | v :: rest, c => by
      simp only [deepCloneList, eraseList, erase_deepClone v c,
        eraseList_deepCloneList rest (deepClone v c).2]
termination_by structural xs => xs

/-- Field-wise erasure equality for the field clone. -/
theorem eraseFields_deepCloneFields : ∀ (fs : List (String × Val)) (c : Nat),
    eraseFields (deepCloneFields fs c).1 = eraseFields fs
  | [], _ => rfl
  | (k, v) :: rest, c => by
      simp only [deepCloneFields, eraseFields, erase_deepClone v c,
        eraseFields_deepCloneFields rest (deepClone v c).2]
termination_by structural fs => fs
end

mutual
/-- Freshness of a clone: every identity tag reachable in the clone
outside Map and Set interiors was allocated by the clone itself, hence is
at least the starting counter. -/
theorem shallowIds_deepClone : ∀ (v : Val) (c : Nat) (j : Nat),
    j ∈ shallowIds (deepClone v c).1 → c ≤ j
  | .undefV, _, _ => by simp [deepClone, shallowIds]
  | .null, _, _ => by simp [deepClone, shallowIds]
  | .boolV _, _, _ => by simp [deepClone, shallowIds]
  | .numV _, _, _ => by simp [deepClone, shallowIds]
  | .strV _, _, _ => by simp [deepClone, shallowIds]
  | .dateV _ _, c, j => by
      simp only [deepClone, shallowIds, List.mem_singleton]
      omega
  | .mapV _ _, c, j => by
      simp only [deepClone, shallowIds, List.mem_singleton]
      omega
  | .setV _ _, c, j => by
      simp only [deepClone, shallowIds, List.mem_singleton]
      omega
  | .arrV _ xs, c, j => by
      simp only [deepClone, shallowIds, List.mem_cons]
      intro h
      rcases h with h | h
      · have := deepCloneList_c_le xs c
        omega
      · exact shallowIdsList_deepCloneList xs c j h
  | .objV _ fs, c, j => by
      simp only [deepClone, shallowIds, List.mem_cons]
      intro h
      rcases h with h | h
      · have := deepCloneFields_c_le fs c
        omega
      · exact shallowIdsFields_deepCloneFields fs c j h
termination_by structural v => v

/-- Freshness of the array-element clone. -/
theorem shallowIdsList_deepCloneList : ∀ (xs : List Val) (c : Nat) (j : Nat),
    j ∈ shallowIdsList (deepCloneList xs c).1 → c ≤ j
  | [], _, _ => by simp [deepCloneList, shallowIdsList]
  | v :: rest, c, j => by
      simp only [deepCloneList, shallowIdsList, List.mem_append]
      intro h
      rcases h with h | h
      · exact shallowIds_deepClone v c j h
      · have h2 := shallowIdsList_deepCloneList rest (deepClone v c).2 j h
        have := deepClone_c_le v c
        omega
termination_by structural xs => xs

/-- Freshness of the field clone. -/
theorem shallowIdsFields_deepCloneFields :
    ∀ (fs : List (String × Val)) (c : Nat) (j : Nat),
    j ∈ shallowIdsFields (deepCloneFields fs c).1 → c ≤ j
  | [], _, _ => by simp [deepCloneFields, shallowIdsFields]
  | (_, v) :: rest, c, j => by
      simp only [deepCloneFields, shallowIdsFields, List.mem_append]
      intro h
      rcases h with h | h
      · exact shallowIds_deepClone v c j h
      · have h2 := shallowIdsFields_deepCloneFields rest (deepClone v c).2 j h
        have := deepClone_c_le v c
        omega
termination_by structural fs => fs
end

/-- Cloning fields preserves each key's binding up to erasure. -/
theorem lookupField_deepCloneFields : ∀ (fs : List (String × Val)) (c : Nat)
    (k : String), (lookupField (deepCloneFields fs c).1 k).map erase =
    (lookupField fs k).map erase := by
  intro fs
  induction fs with
  | nil => intro c k; rfl
  | cons hd rest ih =>
      intro c k
      obtain ⟨k1, v⟩ := hd
      simp only [deepCloneFields, lookupField]
      by_cases hk : k1 = k
      · simp [hk, erase_deepClone]
      · simp [hk, ih]

/-- Property reads commute with cloning up to erasure. -/
theorem erase_getProp_deepClone : ∀ (v : Val) (c : Nat) (k : String),
    erase (getProp (deepClone v c).1 k) = erase (getProp v k) := by
  intro v c k
  cases v with
  | objV i fs =>
      simp only [deepClone, getProp]
      have h := lookupField_deepCloneFields fs c k
      cases h1 : lookupField fs k with
      | none =>
          rw [h1] at h
          cases h2 : lookupField (deepCloneFields fs c).1 k with
          | none => simp
          | some w => rw [h2] at h; simp at h
      | some w =>
          rw [h1] at h
          cases h2 : lookupField (deepCloneFields fs c).1 k with
          | none => rw [h2] at h; simp at h
          | some w2 => rw [h2] at h; simp at h; simpa using h
  | undefV => rfl
  | null => rfl
  | boolV b => rfl
  | numV n => rfl
  | strV s => rfl
  | dateV i t => simp [deepClone, getProp]
  | arrV i xs => simp [deepClone, getProp]
  | mapV i es => simp [deepClone, getProp]
  | setV i xs => simp [deepClone, getProp]

/-- Erasure preserves the head constructor null. -/
theorem erase_eq_null (w : Val) (h : erase w = Val.null) : w = Val.null := by
  cases w
  case null => rfl
  all_goals simp [erase] at h

/-- Erasure preserves undefined. -/
theorem erase_eq_undefV (w : Val) (h : erase w = Val.undefV) : w = Val.undefV := by
  cases w
  case undefV => rfl
  all_goals simp [erase] at h

/-- A binding found by lookup contributes its shallow ids to the field
list. -/
theorem shallowIds_lookupField : ∀ (fs : List (String × Val)) (k : String)
    (w : Val), lookupField fs k = some w →
    ∀ j ∈ shallowIds w, j ∈ shallowIdsFields fs := by
  intro fs
  induction fs with
  | nil => intro k w h; simp [lookupField] at h
  | cons hd rest ih =>
      intro k w h j hj
      obtain ⟨k1, v⟩ := hd
      simp only [lookupField] at h
      simp only [shallowIdsFields, List.mem_append]
      by_cases hk : k1 = k
      · rw [if_pos hk] at h
        injection h with h2
        exact Or.inl (by rw [h2]; exact hj)
      · rw [if_neg hk] at h
        exact Or.inr (ih k w h j hj)

/-- A property read only exposes ids already reachable in the value. -/
theorem shallowIds_getProp (v : Val) (k : String) :
    ∀ j ∈ shallowIds (getProp v k), j ∈ shallowIds v := by
  intro j hj
  cases v with
  | objV i fs =>
      simp only [getProp] at hj
      cases h1 : lookupField fs k with
      | none => rw [h1] at hj; simp [shallowIds] at hj
      | some w =>
          rw [h1] at hj
          simp only [Option.getD_some] at hj
          simp only [shallowIds, List.mem_cons]
          exact Or.inr (shallowIds_lookupField fs k w h1 j hj)
  | undefV => simp [getProp, shallowIds] at hj
  | null => simp [getProp, shallowIds] at hj
  | boolV b => simp [getProp, shallowIds] at hj
  | numV n => simp [getProp, shallowIds] at hj
  | strV s => simp [getProp, shallowIds] at hj
  | dateV i t => simp [getProp, shallowIds] at hj
  | arrV i xs => simp [getProp, shallowIds] at hj
  | mapV i es => simp [getProp, shallowIds] at hj
  | setV i xs => simp [getProp, shallowIds] at hj

/-- After a write, reading the written key gives the written value. -/
theorem lookupField_setField_eq : ∀ (fs : List (String × Val)) (k : String)
    (x : Val), lookupField (setField fs k x) k = some x := by
  intro fs
  induction fs with
  | nil => intro k x; simp [setField, lookupField]
  | cons hd rest ih =>
      intro k x
      obtain ⟨k1, v⟩ := hd
      simp only [setField]
      by_cases hk : k1 = k
      · simp [lookupField, hk]
      · simp [lookupField, hk, ih]

/-- A write leaves every other key's binding unchanged. -/
theorem lookupField_setField_ne : ∀ (fs : List (String × Val)) (k k2 : String)
    (x : Val), k2 ≠ k → lookupField (setField fs k x) k2 = lookupField fs k2 := by
  intro fs
  induction fs with
  | nil =>
      intro k k2 x hne
      simp only [setField, lookupField]
      rw [if_neg (fun h => hne h.symm)]
  | cons hd rest ih =>
      intro k k2 x hne
      obtain ⟨k1, v⟩ := hd
      simp only [setField]
      by_cases hk : k1 = k
      · rw [if_pos hk]
        simp only [lookupField]
        have hne2 : ¬ k1 = k2 := fun h => hne (h ▸ hk)
        rw [if_neg hne2, if_neg hne2]
      · rw [if_neg hk]
        simp only [lookupField]
        by_cases hk2 : k1 = k2
        · rw [if_pos hk2, if_pos hk2]
        · rw [if_neg hk2, if_neg hk2]
          exact ih k k2 x hne

/-- The ids of a written field list come from the old list or from the
written value. -/
theorem shallowIdsFields_setField : ∀ (fs : List (String × Val)) (k : String)
    (x : Val) (j : Nat), j ∈ shallowIdsFields (setField fs k x) →
    j ∈ shallowIdsFields fs ∨ j ∈ shallowIds x := by
  intro fs
  induction fs with
  | nil =>
      intro k x j hj
      simp [setField, shallowIdsFields, shallowIdsList] at hj
      exact Or.inr hj
  | cons hd rest ih =>
      intro k x j hj
      obtain ⟨k1, v⟩ := hd
      simp only [setField] at hj
      by_cases hk : k1 = k
      · rw [if_pos hk] at hj
        simp only [shallowIdsFields, List.mem_append] at hj ⊢
        tauto
      · rw [if_neg hk] at hj
        simp only [shallowIdsFields, List.mem_append] at hj ⊢
        rcases hj with h | h
        · tauto
        · rcases ih k x j h with h2 | h2 <;> tauto

/-- Reading back a successfully written property gives the written
value. -/
theorem setProp_getProp_eq (t : Val) (k : String) (x : Val) (t2 : Val)
    (h : setProp t k x = some t2) : getProp t2 k = x := by
  cases t with
  | objV i fs =>
      simp only [setProp] at h
      cases h
      simp [getProp, lookupField_setField_eq]
  | undefV => simp [setProp] at h
  | null => simp [setProp] at h
  | boolV b => simp [setProp] at h
  | numV n => simp [setProp] at h
  | strV s => simp [setProp] at h
  | dateV i tm => simp [setProp] at h
  | arrV i xs => simp [setProp] at h
  | mapV i es => simp [setProp] at h
  | setV i xs => simp [setProp] at h

/-- A successful property write leaves every other key unchanged. -/
theorem setProp_getProp_ne (t : Val) (k k2 : String) (x : Val) (t2 : Val)
    (h : setProp t k x = some t2) (hne : k2 ≠ k) :
    getProp t2 k2 = getProp t k2 := by
  cases t with
  | objV i fs =>
      simp only [setProp] at h
      cases h
      simp [getProp, lookupField_setField_ne fs k k2 x hne]
  | undefV => simp [setProp] at h
  | null => simp [setProp] at h
  | boolV b => simp [setProp] at h
  | numV n => simp [setProp] at h
  | strV s => simp [setProp] at h
  | dateV i tm => simp [setProp] at h
  | arrV i xs => simp [setProp] at h
  | mapV i es => simp [setProp] at h
  | setV i xs => simp [setProp] at h

/-- The ids of a value after a property write come from the old value or
from the written value. -/
theorem setProp_shallowIds (t : Val) (k : String) (x : Val) (t2 : Val)
    (h : setProp t k x = some t2) (j : Nat) (hj : j ∈ shallowIds t2) :
    j ∈ shallowIds t ∨ j ∈ shallowIds x := by
  cases t with
  | objV i fs =>
      simp only [setProp] at h
      cases h
      simp only [shallowIds, List.mem_cons] at hj ⊢
      rcases hj with h | h
      · exact Or.inl (Or.inl h)
      · rcases shallowIdsFields_setField fs k x j h with h2 | h2
        · exact Or.inl (Or.inr h2)
        · exact Or.inr h2
  | undefV => simp [setProp] at h
  | null => simp [setProp] at h
  | boolV b => simp [setProp] at h
  | numV n => simp [setProp] at h
  | strV s => simp [setProp] at h
  | dateV i tm => simp [setProp] at h
  | arrV i xs => simp [setProp] at h
  | mapV i es => simp [setProp] at h
  | setV i xs => simp [setProp] at h

/-- Inversion of a successful clone-assign step. -/
theorem writeClone_inv (target : Val) (key : String) (sv : Val) (c : Nat)
    (r : Val × Nat) (h : writeClone target key sv c = some r) :
    ∃ t, setProp target key (deepClone sv c).1 = some t ∧
    r = (t, (deepClone sv c).2) := by
  simp only [writeClone] at h
  cases hs : setProp target key (deepClone sv c).1 with
  | none => rw [hs] at h; cases h
  | some t =>
      rw [hs] at h
      exact ⟨t, rfl, (Option.some.inj h).symm⟩

/-- A clone-assign step never decreases the counter. -/
theorem writeClone_c_le (target : Val) (key : String) (sv : Val) (c : Nat)
    (r : Val × Nat) (h : writeClone target key sv c = some r) : c ≤ r.2 := by
  obtain ⟨t, hs, hr⟩ := writeClone_inv target key sv c r h
  rw [hr]
  exact deepClone_c_le sv c

/-- The ids of a clone-assign result come from the old target or are
fresh (at least the counter). -/
theorem writeClone_shallowIds (target : Val) (key : String) (sv : Val)
    (c : Nat) (r : Val × Nat) (h : writeClone target key sv c = some r)
    (j : Nat) (hj : j ∈ shallowIds r.1) :
    j ∈ shallowIds target ∨ c ≤ j := by
  obtain ⟨t, hs, hr⟩ := writeClone_inv target key sv c r h
  rw [hr] at hj
  rcases setProp_shallowIds target key (deepClone sv c).1 t hs j hj with h2 | h2
  · exact Or.inl h2
  · exact Or.inr (shallowIds_deepClone sv c j h2)

/-- After a clone-assign, the written key holds the clone. -/
theorem writeClone_getProp_eq (target : Val) (key : String) (sv : Val)
    (c : Nat) (r : Val × Nat) (h : writeClone target key sv c = some r) :
    getProp r.1 key = (deepClone sv c).1 := by
  obtain ⟨t, hs, hr⟩ := writeClone_inv target key sv c r h
  rw [hr]
  exact setProp_getProp_eq target key (deepClone sv c).1 t hs

/-- After a clone-assign, every other key is unchanged. -/
theorem writeClone_getProp_ne (target : Val) (key k2 : String) (sv : Val)
    (c : Nat) (r : Val × Nat) (h : writeClone target key sv c = some r)
    (hne : k2 ≠ key) : getProp r.1 k2 = getProp target k2 := by
  obtain ⟨t, hs, hr⟩ := writeClone_inv target key sv c r h
  rw [hr]
  exact setProp_getProp_ne target key k2 (deepClone sv c).1 t hs hne

/-- The exact counter after a successful clone-assign. -/
theorem writeClone_c2 (target : Val) (key : String) (sv : Val) (c : Nat)
    (r : Val × Nat) (h : writeClone target key sv c = some r) :
    r.2 = (deepClone sv c).2 := by
  obtain ⟨t, hs, hr⟩ := writeClone_inv target key sv c r h
  rw [hr]

mutual
/-- The merge walk never decreases the allocation counter. -/
theorem merge_c_le : ∀ (source target : Val) (path : String)
    (tbl : MergeOptions) (c : Nat) (q : Val × Nat),
    merge target source path tbl c = some q → c ≤ q.2
  | .objV _ fs, target, path, tbl, c, q => by
      intro h
      simp only [merge] at h
      exact mergeFields_c_le fs target path tbl c q h
  | .undefV, _, _, _, c, q => by
      intro h; simp only [merge] at h; cases h; exact Nat.le_refl c
  | .null, _, _, _, c, q => by
      intro h; simp only [merge] at h; cases h; exact Nat.le_refl c
  | .boolV _, _, _, _, c, q => by
      intro h; simp only [merge] at h; cases h; exact Nat.le_refl c
  | .numV _, _, _, _, c, q => by
      intro h; simp only [merge] at h; cases h; exact Nat.le_refl c
  | .strV _, _, _, _, c, q => by
      intro h; simp only [merge] at h; cases h; exact Nat.le_refl c
  | .dateV _ _, _, _, _, c, q => by
      intro h; simp only [merge] at h; cases h; exact Nat.le_refl c
  | .arrV _ _, _, _, _, c, q => by
      intro h; simp only [merge] at h; cases h; exact Nat.le_refl c
  | .mapV _ _, _, _, _, c, q => by
      intro h; simp only [merge] at h; cases h; exact Nat.le_refl c
  | .setV _ _, _, _, _, c, q => by
      intro h; simp only [merge] at h; cases h; exact Nat.le_refl c
termination_by structural s => s

/-- Counter monotonicity for the field walk. -/
theorem mergeFields_c_le : ∀ (fields : List (String × Val)) (target : Val)
    (path : String) (tbl : MergeOptions) (c : Nat) (q : Val × Nat),
    mergeFields target fields path tbl c = some q → c ≤ q.2
  | [], target, path, tbl, c, q => by
      intro h
      simp only [mergeFields] at h
      cases h; exact Nat.le_refl c
  | (key, sv) :: rest, target, path, tbl, c, q => by
      intro h
      simp only [mergeFields] at h
      split_ifs at h with h1 h2 h3 h4
      · exact mergeFields_c_le rest target path tbl c q h
      · exact mergeFields_c_le rest target path tbl c q h
      · cases hw : writeClone target key sv c with
        | none => rw [hw] at h; cases h
        | some r =>
            rw [hw] at h
            have hr := mergeFields_c_le rest r.1 path tbl r.2 q h
            have := writeClone_c_le target key sv c r hw
            omega
      · cases hm : merge (getProp target key) sv (pathJoin path key) tbl c with
        | none => rw [hm] at h; cases h
        | some mq =>
            rw [hm] at h
            dsimp only at h
            cases hs : setProp target key mq.1 with
            | none => rw [hs] at h; cases h
            | some t =>
                rw [hs] at h
                have hr := mergeFields_c_le rest t path tbl mq.2 q h
                have := merge_c_le sv (getProp target key) (pathJoin path key)
                  tbl c mq hm
                omega
      · cases hw : writeClone target key sv c with
        | none => rw [hw] at h; cases h
        | some r =>
            rw [hw] at h
            have hr := mergeFields_c_le rest r.1 path tbl r.2 q h
            have := writeClone_c_le target key sv c r hw
            omega
termination_by structural fs => fs
end

mutual
/-- Freshness invariant of the merge walk: if every id of the working
target is at least n and the counter is at least n, then every id of the
merged result (outside Map and Set interiors) is still at least n.  All
values the walk writes are clones allocated at the current counter. -/
theorem merge_idsGe : ∀ (source target : Val) (path : String)
    (tbl : MergeOptions) (c : Nat) (q : Val × Nat) (n : Nat),
    (∀ j ∈ shallowIds target, n ≤ j) → n ≤ c →
    merge target source path tbl c = some q →
    ∀ j ∈ shallowIds q.1, n ≤ j
  | .objV _ fs, target, path, tbl, c, q, n => by
      intro ht hc h
      simp only [merge] at h
      exact mergeFields_idsGe fs target path tbl c q n ht hc h
  | .undefV, target, _, _, _, q, n => by
      intro ht hc h; simp only [merge] at h; cases h; exact ht
  | .null, target, _, _, _, q, n => by
      intro ht hc h; simp only [merge] at h; cases h; exact ht
  | .boolV _, target, _, _, _, q, n => by
      intro ht hc h; simp only [merge] at h; cases h; exact ht
  | .numV _, target, _, _, _, q, n => by
      intro ht hc h; simp only [merge] at h; cases h; exact ht
  | .strV _, target, _, _, _, q, n => by
      intro ht hc h; simp only [merge] at h; cases h; exact ht
  | .dateV _ _, target, _, _, _, q, n => by
      intro ht hc h; simp only [merge] at h; cases h; exact ht
  | .arrV _ _, target, _, _, _, q, n => by
      intro ht hc h; simp only [merge] at h; cases h; exact ht
  | .mapV _ _, target, _, _, _, q, n => by
      intro ht hc h; simp only [merge] at h; cases h; exact ht
  | .setV _ _, target, _, _, _, q, n => by
      intro ht hc h; simp only [merge] at h; cases h; exact ht
termination_by structural s => s

/-- Freshness invariant for the field walk. -/
theorem mergeFields_idsGe : ∀ (fields : List (String × Val)) (target : Val)
    (path : String) (tbl : MergeOptions) (c : Nat) (q : Val × Nat) (n : Nat),
    (∀ j ∈ shallowIds target, n ≤ j) → n ≤ c →
    mergeFields target fields path tbl c = some q →
    ∀ j ∈ shallowIds q.1, n ≤ j
  | [], target, path, tbl, c, q, n => by
      intro ht hc h
      simp only [mergeFields] at h
      cases h; exact ht
  | (key, sv) :: rest, target, path, tbl, c, q, n => by
      intro ht hc h
      simp only [mergeFields] at h
      split_ifs at h with h1 h2 h3 h4
      · exact mergeFields_idsGe rest target path tbl c q n ht hc h
      · exact mergeFields_idsGe rest target path tbl c q n ht hc h
      · cases hw : writeClone target key sv c with
        | none => rw [hw] at h; cases h
        | some r =>
            rw [hw] at h
            have ht2 : ∀ j ∈ shallowIds r.1, n ≤ j := by
              intro j hj
              rcases writeClone_shallowIds target key sv c r hw j hj with h2 | h2
              · exact ht j h2
              · omega
            have hc2 : n ≤ r.2 := by
              have := writeClone_c_le target key sv c r hw
              omega
            exact mergeFields_idsGe rest r.1 path tbl r.2 q n ht2 hc2 h
      · cases hm : merge (getProp target key) sv (pathJoin path key) tbl c with
        | none => rw [hm] at h; cases h
        | some mq =>
            rw [hm] at h
            dsimp only at h
            cases hs : setProp target key mq.1 with
            | none => rw [hs] at h; cases h
            | some t =>
                rw [hs] at h
                have htv : ∀ j ∈ shallowIds (getProp target key), n ≤ j :=
                  fun j hj => ht j (shallowIds_getProp target key j hj)
                have hm2 : ∀ j ∈ shallowIds mq.1, n ≤ j :=
                  merge_idsGe sv (getProp target key) (pathJoin path key)
                    tbl c mq n htv hc hm
                have ht2 : ∀ j ∈ shallowIds t, n ≤ j := by
                  intro j hj
                  rcases setProp_shallowIds target key mq.1 t hs j hj with h2 | h2
                  · exact ht j h2
                  · exact hm2 j h2
                have hc2 : n ≤ mq.2 := by
                  have := merge_c_le sv (getProp target key) (pathJoin path key)
                    tbl c mq hm
                  omega
                exact mergeFields_idsGe rest t path tbl mq.2 q n ht2 hc2 h
      · cases hw : writeClone target key sv c with
        | none => rw [hw] at h; cases h
        | some r =>
            rw [hw] at h
            have ht2 : ∀ j ∈ shallowIds r.1, n ≤ j := by
              intro j hj
              rcases writeClone_shallowIds target key sv c r hw j hj with h2 | h2
              · exact ht j h2
              · omega
            have hc2 : n ≤ r.2 := by
              have := writeClone_c_le target key sv c r hw
              omega
            exact mergeFields_idsGe rest r.1 path tbl r.2 q n ht2 hc2 h
termination_by structural fs => fs
end

/-- Frame property of the field walk: a key that is not among the walked
own keys of the source keeps exactly the value it had in the working
target. -/
theorem mergeFields_frame : ∀ (fields : List (String × Val)) (target : Val)
    (path : String) (tbl : MergeOptions) (c : Nat) (q : Val × Nat)
    (k : String), k ∉ fields.map Prod.fst →
    mergeFields target fields path tbl c = some q →
    getProp q.1 k = getProp target k := by
  intro fields
  induction fields with
  | nil =>
      intro target path tbl c q k hk h
      simp only [mergeFields] at h
      cases h; rfl
  | cons hd rest ih =>
      intro target path tbl c q k hk h
      obtain ⟨key, sv⟩ := hd
      have hne : k ≠ key := by
        intro he
        exact hk (by simp [he])
      have hkrest : k ∉ rest.map Prod.fst := by
        intro he
        exact hk (by simp [he])
      simp only [mergeFields] at h
      split_ifs at h with h1 h2 h3 h4
      · exact ih target path tbl c q k hkrest h
      · exact ih target path tbl c q k hkrest h
      · cases hw : writeClone target key sv c with
        | none => rw [hw] at h; cases h
        | some r =>
            rw [hw] at h
            rw [ih r.1 path tbl r.2 q k hkrest h]
            exact writeClone_getProp_ne target key k sv c r hw hne
      · cases hm : merge (getProp target key) sv (pathJoin path key) tbl c with
        | none => rw [hm] at h; cases h
        | some mq =>
            rw [hm] at h
            dsimp only at h
            cases hs : setProp target key mq.1 with
            | none => rw [hs] at h; cases h
            | some t =>
                rw [hs] at h
                rw [ih t path tbl mq.2 q k hkrest h]
                exact setProp_getProp_ne target key k mq.1 t hs hne
      · cases hw : writeClone target key sv c with
        | none => rw [hw] at h; cases h
        | some r =>
            rw [hw] at h
            rw [ih r.1 path tbl r.2 q k hkrest h]
            exact writeClone_getProp_ne target key k sv c r hw hne

/-- A value of object type is not undefined. -/
theorem typeofObject_not_undefV (v : Val) (h : typeofObject v = true) :
    isUndefV v = false := by
  cases v
  case undefV => simp [typeofObject] at h
  all_goals rfl

/-- An array value is not undefined. -/
theorem isArray_not_undefV (v : Val) (h : isArray v = true) :
    isUndefV v = false := by
  cases v
  case undefV => simp [isArray] at h
  all_goals rfl

/-- Inversion of one step of the field walk: processing the head field
yields some intermediate target and counter from which the walk continues
on the remaining fields; the step never decreases the counter and only
writes at the head key. -/
theorem mergeFields_cons_inv (key : String) (sv : Val)
    (rest : List (String × Val)) (target : Val) (path : String)
    (tbl : MergeOptions) (c : Nat) (q : Val × Nat)
    (h : mergeFields target ((key, sv) :: rest) path tbl c = some q) :
    ∃ t1 c1, c ≤ c1 ∧ mergeFields t1 rest path tbl c1 = some q ∧
    (∀ k2, k2 ≠ key → getProp t1 k2 = getProp target k2) := by
  simp only [mergeFields] at h
  split_ifs at h with h1 h2 h3 h4
  · exact ⟨target, c, Nat.le_refl c, h, fun k2 _ => rfl⟩
  · exact ⟨target, c, Nat.le_refl c, h, fun k2 _ => rfl⟩
  · cases hw : writeClone target key sv c with
    | none => rw [hw] at h; cases h
    | some r =>
        rw [hw] at h
        exact ⟨r.1, r.2, writeClone_c_le target key sv c r hw, h,
          fun k2 hne => writeClone_getProp_ne target key k2 sv c r hw hne⟩
  · cases hm : merge (getProp target key) sv (pathJoin path key) tbl c with
    | none => rw [hm] at h; cases h
    | some mq =>
        rw [hm] at h
        dsimp only at h
        cases hs : setProp target key mq.1 with
        | none => rw [hs] at h; cases h
        | some t =>
            rw [hs] at h
            have hmc := merge_c_le sv (getProp target key) (pathJoin path key)
              tbl c mq hm
            exact ⟨t, mq.2, hmc, h,
              fun k2 hne => setProp_getProp_ne target key k2 mq.1 t hs hne⟩
  · cases hw : writeClone target key sv c with
    | none => rw [hw] at h; cases h
    | some r =>
        rw [hw] at h
        exact ⟨r.1, r.2, writeClone_c_le target key sv c r hw, h,
          fun k2 hne => writeClone_getProp_ne target key k2 sv c r hw hne⟩

/-- A binding found by lookup contributes its deep ids to the field
list. -/
theorem deepIds_lookupField : ∀ (fs : List (String × Val)) (k : String)
    (w : Val), lookupField fs k = some w →
    ∀ j ∈ deepIds w, j ∈ deepIdsFields fs := by
  intro fs
  induction fs with
  | nil => intro k w h; simp [lookupField] at h
  | cons hd rest ih =>
      intro k w h j hj
      obtain ⟨k1, v⟩ := hd
      simp only [lookupField] at h
      simp only [deepIdsFields, List.mem_append]
      by_cases hk : k1 = k
      · rw [if_pos hk] at h
        injection h with h2
        exact Or.inl (by rw [h2]; exact hj)
      · rw [if_neg hk] at h
        exact Or.inr (ih k w h j hj)

/-- Unfolding of the id bound: every deep id is strictly below the
bound. -/
theorem idsBelow_spec (v : Val) (c : Nat) (h : idsBelow v c = true) :
    ∀ j ∈ deepIds v, j < c := by
  intro j hj
  have := List.all_eq_true.mp h j hj
  exact of_decide_eq_true this

/-- Safe-skip: when the strategy at the key's path is safe and the
override holds undefined at that key, the field walk leaves the target's
value at that key exactly as it was. -/
theorem mergeFields_safe_skip : ∀ (fields : List (String × Val))
    (target : Val) (path : String) (tbl : MergeOptions) (c : Nat)
    (q : Val × Nat) (k : String), (fields.map Prod.fst).Nodup →
    lookupField fields k = some .undefV →
    tbl (pathJoin path k) = some safeS →
    mergeFields target fields path tbl c = some q →
    getProp q.1 k = getProp target k := by
  intro fields
  induction fields with
  | nil =>
      intro target path tbl c q k _ hlk
      simp [lookupField] at hlk
  | cons hd rest ih =>
      intro target path tbl c q k hnd hlk htbl h
      obtain ⟨key, sv⟩ := hd
      by_cases hkey : key = k
      · subst hkey
        simp only [lookupField, if_pos rfl] at hlk
        injection hlk with hsv
        subst hsv
        have hkrest : key ∉ rest.map Prod.fst :=
          (List.nodup_cons.mp (by simpa using hnd)).1
        simp only [mergeFields] at h
        split_ifs at h with h1 h2 h3 h4
        · exact mergeFields_frame rest target path tbl c q key hkrest h
        · exact absurd ⟨htbl, rfl⟩ h1
        · exact absurd ⟨htbl, rfl⟩ h1
        · exact absurd ⟨htbl, rfl⟩ h1
        · exact absurd ⟨htbl, rfl⟩ h1
      · simp only [lookupField, if_neg hkey] at hlk
        have hnd2 : (rest.map Prod.fst).Nodup :=
          (List.nodup_cons.mp (by simpa using hnd)).2
        obtain ⟨t1, c1, _, hrest, hget⟩ :=
          mergeFields_cons_inv key sv rest target path tbl c q h
        rw [ih t1 path tbl c1 q k hnd2 hlk htbl hrest]
        exact hget k (fun he => hkey he.symm)

/-- Array-replace: when the override holds an array at the key, the field
walk stores a fresh clone of that array at the key, whatever the strategy
table says. -/
theorem mergeFields_array_key : ∀ (fields : List (String × Val))
    (target : Val) (path : String) (tbl : MergeOptions) (c : Nat)
    (q : Val × Nat) (k : String) (sv : Val), (fields.map Prod.fst).Nodup →
    lookupField fields k = some sv → isArray sv = true →
    mergeFields target fields path tbl c = some q →
    ∃ cw, c ≤ cw ∧ getProp q.1 k = (deepClone sv cw).1 := by
  intro fields
  induction fields with
  | nil =>
      intro target path tbl c q k sv _ hlk
      simp [lookupField] at hlk
  | cons hd rest ih =>
      intro target path tbl c q k sv hnd hlk harr h
      obtain ⟨key, sv1⟩ := hd
      by_cases hkey : key = k
      · subst hkey
        simp only [lookupField, if_pos rfl] at hlk
        injection hlk with hsv
        subst hsv
        have hiu : isUndefV sv1 = false := isArray_not_undefV sv1 harr
        have hkrest : key ∉ rest.map Prod.fst :=
          (List.nodup_cons.mp (by simpa using hnd)).1
        simp only [mergeFields] at h
        split_ifs at h with h1 h2 h3 h4
        · rw [hiu] at h1
          exact absurd h1.2 (by simp)
        · rw [hiu] at h2
          exact absurd h2.2.2 (by simp)
        · cases hw : writeClone target key sv1 c with
          | none => rw [hw] at h; cases h
          | some r =>
              rw [hw] at h
              refine ⟨c, Nat.le_refl c, ?_⟩
              rw [mergeFields_frame rest r.1 path tbl r.2 q key hkrest h]
              exact writeClone_getProp_eq target key sv1 c r hw
        · exact absurd (Or.inr harr) h3
        · exact absurd (Or.inr harr) h3
      · simp only [lookupField, if_neg hkey] at hlk
        have hnd2 : (rest.map Prod.fst).Nodup :=
          (List.nodup_cons.mp (by simpa using hnd)).2
        obtain ⟨t1, c1, hc1, hrest, _⟩ :=
          mergeFields_cons_inv key sv1 rest target path tbl c q h
        obtain ⟨cw, hcw, hres⟩ :=
          ih t1 path tbl c1 q k sv hnd2 hlk harr hrest
        exact ⟨cw, Nat.le_trans hc1 hcw, hres⟩

/-- Mismatch-replace at a null base value: when the override holds a
non-null, non-array object-typed value at the key, the target holds null
there, and the table does not say replace at that path, the walk still
ends up storing a fresh clone of the override value (the recursion guard
rejects null targets, so the default branch assigns). -/
theorem mergeFields_null_mismatch : ∀ (fields : List (String × Val))
    (target : Val) (path : String) (tbl : MergeOptions) (c : Nat)
    (q : Val × Nat) (k : String) (sv : Val), (fields.map Prod.fst).Nodup →
    lookupField fields k = some sv → typeofObject sv = true →
    isNull sv = false → isArray sv = false →
    getProp target k = Val.null →
    tbl (pathJoin path k) ≠ some replaceS →
    mergeFields target fields path tbl c = some q →
    ∃ cw, c ≤ cw ∧ getProp q.1 k = (deepClone sv cw).1 := by
  intro fields
  induction fields with
  | nil =>
      intro target path tbl c q k sv _ hlk
      simp [lookupField] at hlk
  | cons hd rest ih =>
      intro target path tbl c q k sv hnd hlk hobj hnn hna hnull hrep h
      obtain ⟨key, sv1⟩ := hd
      by_cases hkey : key = k
      · subst hkey
        simp only [lookupField, if_pos rfl] at hlk
        injection hlk with hsv
        subst hsv
        have hiu : isUndefV sv1 = false := typeofObject_not_undefV sv1 hobj
        have hkrest : key ∉ rest.map Prod.fst :=
          (List.nodup_cons.mp (by simpa using hnd)).1
        simp only [mergeFields] at h
        split_ifs at h with h1 h2 h3 h4
        · rw [hiu] at h1
          exact absurd h1.2 (by simp)
        · rw [hiu] at h2
          exact absurd h2.2.2 (by simp)
        · rcases h3 with h3 | h3
          · exact absurd h3 hrep
          · rw [hna] at h3
            exact absurd h3 (by simp)
        · rw [hnull] at h4
          exact absurd h4.2.2.2 (by simp [isNull])
        · cases hw : writeClone target key sv1 c with
          | none => rw [hw] at h; cases h
          | some r =>
              rw [hw] at h
              refine ⟨c, Nat.le_refl c, ?_⟩
              rw [mergeFields_frame rest r.1 path tbl r.2 q key hkrest h]
              exact writeClone_getProp_eq target key sv1 c r hw
      · simp only [lookupField, if_neg hkey] at hlk
        have hnd2 : (rest.map Prod.fst).Nodup :=
          (List.nodup_cons.mp (by simpa using hnd)).2
        obtain ⟨t1, c1, hc1, hrest, hget⟩ :=
          mergeFields_cons_inv key sv1 rest target path tbl c q h
        have hnull2 : getProp t1 k = Val.null := by
          rw [hget k (fun he => hkey he.symm)]
          exact hnull
        obtain ⟨cw, hcw, hres⟩ :=
          ih t1 path tbl c1 q k sv hnd2 hlk hobj hnn hna hnull2 hrep hrest
        exact ⟨cw, Nat.le_trans hc1 hcw, hres⟩

theorem sanitize_eq_of_not_malformed (tbl : MergeOptions) (p : String)
    (h : malformedB tbl p = false) : sanitize tbl p = tbl p := by
  unfold sanitize
  cases htbl : tbl p with
  | none => rfl
  | some s =>
      unfold malformedB at h
      rw [htbl] at h
      simp only [Bool.not_eq_false'] at h
      dsimp only
      rw [if_pos h]

theorem sanitize_eq_none_of_malformed (tbl : MergeOptions) (p : String)
    (h : malformedB tbl p = true) : sanitize tbl p = none := by
  unfold sanitize
  cases htbl : tbl p with
  | none => rfl
  | some s =>
      unfold malformedB at h
      rw [htbl] at h
      simp only [Bool.not_eq_true'] at h
      dsimp only
      rw [if_neg (by simp [h])]

theorem malformed_ne_safe (tbl : MergeOptions) (p : String)
    (h : malformedB tbl p = true) : tbl p ≠ some safeS := by
  intro he
  unfold malformedB at h
  rw [he] at h
  simp [recognizedB] at h

theorem malformed_ne_replace (tbl : MergeOptions) (p : String)
    (h : malformedB tbl p = true) : tbl p ≠ some replaceS := by
  intro he
  unfold malformedB at h
  rw [he] at h
  simp [recognizedB] at h

theorem malformed_ne_none (tbl : MergeOptions) (p : String)
    (h : malformedB tbl p = true) : tbl p ≠ none := by
  intro he
  unfold malformedB at h
  rw [he] at h
  simp at h

mutual
theorem merge_sanitize : ∀ (source target : Val) (path : String)
    (tbl : MergeOptions) (c : Nat),
    strategyOk tbl path source = true →
    merge target source path (sanitize tbl) c =
    merge target source path tbl c
  | .objV _ fs, target, path, tbl, c => by
      intro hok
      simp only [merge]
      exact mergeFields_sanitize fs target path tbl c
        (by simpa [strategyOk] using hok)
  | .undefV, _, _, _, _ => fun _ => rfl
  | .null, _, _, _, _ => fun _ => rfl
  | .boolV _, _, _, _, _ => fun _ => rfl
  | .numV _, _, _, _, _ => fun _ => rfl
  | .strV _, _, _, _, _ => fun _ => rfl
  | .dateV _ _, _, _, _, _ => fun _ => rfl
  | .arrV _ _, _, _, _, _ => fun _ => rfl
  | .mapV _ _, _, _, _, _ => fun _ => rfl
  | .setV _ _, _, _, _, _ => fun _ => rfl
termination_by structural s => s

theorem mergeFields_sanitize : ∀ (fields : List (String × Val))
    (target : Val) (path : String) (tbl : MergeOptions) (c : Nat),
    strategyOkFields tbl path fields = true →
    mergeFields target fields path (sanitize tbl) c =
    mergeFields target fields path tbl c
  | [], _, _, _, _ => fun _ => rfl
  | (key, sv) :: rest, target, path, tbl, c => by
      intro hok
      simp only [strategyOkFields, Bool.and_eq_true, Bool.or_eq_true,
        Bool.not_eq_true'] at hok
      obtain ⟨⟨hguard, hoksv⟩, hokrest⟩ := hok
      simp only [mergeFields]
      by_cases hmal : malformedB tbl (pathJoin path key) = true
      · have hsan := sanitize_eq_none_of_malformed tbl (pathJoin path key) hmal
        have hsafe := malformed_ne_safe tbl (pathJoin path key) hmal
        have hrepl := malformed_ne_replace tbl (pathJoin path key) hmal
        have hnone := malformed_ne_none tbl (pathJoin path key) hmal
        have hiu : isUndefV sv = false := by
          rcases hguard with h | h
          · rw [hmal] at h; cases h
          · exact h
        rw [hsan]
        rw [if_neg (show ¬(none = some safeS ∧ isUndefV sv = true) by simp)]
        rw [if_neg (show ¬((none : Option String) = none ∧
          typeofObject sv = false ∧ isUndefV sv = true) by simp [hiu])]
        rw [if_neg (fun hx : tbl (pathJoin path key) = some safeS ∧
          isUndefV sv = true => hsafe hx.1)]
        rw [if_neg (fun hx : tbl (pathJoin path key) = none ∧
          typeofObject sv = false ∧ isUndefV sv = true => hnone hx.1)]
        by_cases hArr : isArray sv = true
        · rw [if_pos (Or.inr hArr : (none : Option String) = some replaceS ∨
            isArray sv = true)]
          rw [if_pos (Or.inr hArr : tbl (pathJoin path key) = some replaceS ∨
            isArray sv = true)]
          cases hw : writeClone target key sv c with
          | none => rfl
          | some r =>
              dsimp only
              exact mergeFields_sanitize rest r.1 path tbl r.2 hokrest
        · rw [if_neg (show ¬((none : Option String) = some replaceS ∨
            isArray sv = true) by simp [hArr])]
          rw [if_neg (show ¬(tbl (pathJoin path key) = some replaceS ∨
            isArray sv = true) by
              rintro (hx | hx)
              · exact hrepl hx
              · exact hArr hx)]
          by_cases hd : typeofObject sv = true ∧ isNull sv = false ∧
            typeofObject (getProp target key) = true ∧
            isNull (getProp target key) = false
          · rw [if_pos hd, if_pos hd]
            rw [merge_sanitize sv (getProp target key) (pathJoin path key)
              tbl c hoksv]
            cases hm : merge (getProp target key) sv (pathJoin path key)
              tbl c with
            | none => rfl
            | some mq =>
                dsimp only
                cases hs : setProp target key mq.1 with
                | none => rfl
                | some t =>
                    dsimp only
                    exact mergeFields_sanitize rest t path tbl mq.2 hokrest
          · rw [if_neg hd, if_neg hd]
            cases hw : writeClone target key sv c with
            | none => rfl
            | some r =>
                dsimp only
                exact mergeFields_sanitize rest r.1 path tbl r.2 hokrest
      · have hEq := sanitize_eq_of_not_malformed tbl (pathJoin path key)
          (by simpa using hmal)
        rw [hEq]
        split_ifs with h1 h2 h3 h4
        · exact mergeFields_sanitize rest target path tbl c hokrest
        · exact mergeFields_sanitize rest target path tbl c hokrest
        · cases hw : writeClone target key sv c with
          | none => rfl
          | some r =>
              dsimp only
              exact mergeFields_sanitize rest r.1 path tbl r.2 hokrest
        · rw [merge_sanitize sv (getProp target key) (pathJoin path key)
            tbl c hoksv]
          cases hm : merge (getProp target key) sv (pathJoin path key)
            tbl c with
          | none => rfl
          | some mq =>
              dsimp only
              cases hs : setProp target key mq.1 with
              | none => rfl
              | some t =>
                  dsimp only
                  exact mergeFields_sanitize rest t path tbl mq.2 hokrest
        · cases hw : writeClone target key sv c with
          | none => rfl
          | some r =>
              dsimp only
              exact mergeFields_sanitize rest r.1 path tbl r.2 hokrest
termination_by structural fs => fs
end

/-- Claim C9: deepClone is total: for every modelled input value
(primitive, date, map, set, sequence or composite) it terminates and
returns a result, and the result is deep-equal to the input; no error is
ever raised (the embedding is a total function into Val, not an error
monad). -/
theorem deepClone_total_no_failure :
    ∀ (v : Val) (c : Nat), ∃ (w : Val) (n : Nat),
    deepClone v c = (w, n) ∧ erase w = erase v :=
  fun v c => ⟨(deepClone v c).1, (deepClone v c).2, rfl, erase_deepClone v c⟩

/-- Claim C6: when the top-level override is not a plain composite (it is
a primitive, an array, null or undefined), mergeConfig returns exactly
the deep clone of the base, unmodified. -/
theorem mergeConfig_root_non_composite_noop :
    ∀ (base ov : Val) (tbl : MergeOptions) (c : Nat),
    typeofObject ov = false ∨ isArray ov = true ∨ isNull ov = true →
    mergeConfig base ov tbl c = some (deepClone base c) := by
  intro base ov tbl c h
  cases ov with
  | undefV => rfl
  | null => rfl
  | boolV b => rfl
  | numV n => rfl
  | strV s => rfl
  | arrV i xs => rfl
  | dateV i t =>
      rcases h with h | h | h
      all_goals simp [typeofObject, isArray, isNull] at h
  | mapV i es =>
      rcases h with h | h | h
      all_goals simp [typeofObject, isArray, isNull] at h
  | setV i xs =>
      rcases h with h | h | h
      all_goals simp [typeofObject, isArray, isNull] at h
  | objV i fs =>
      rcases h with h | h | h
      all_goals simp [typeofObject, isArray, isNull] at h

/-- Witness for claim C6 at a concrete input: a number override at the
root is ignored entirely. -/
theorem mergeConfig_root_non_composite_noop_witness :
    mergeConfig (.objV 0 [("a", .numV 1)]) (.numV 7) (fun _ => none) 4 =
    some (deepClone (.objV 0 [("a", .numV 1)]) 4) :=
  mergeConfig_root_non_composite_noop (.objV 0 [("a", .numV 1)]) (.numV 7)
    (fun _ => none) 4 (Or.inl rfl)

/-- Claim C10: the merge never writes outside the own keys of the
override: at every key that is not an own key of the override, the result
holds exactly the cloned base field, which is deep-equal to the base
value at that key. -/
theorem mergeConfig_untouched_outside_override :
    ∀ (base ov : Val) (tbl : MergeOptions) (c : Nat) (k : String)
    (q : Val × Nat), k ∉ ownKeys ov →
    mergeConfig base ov tbl c = some q →
    getProp q.1 k = getProp (deepClone base c).1 k ∧
    erase (getProp q.1 k) = erase (getProp base k) := by
  intro base ov tbl c k q hk h
  have hmain : getProp q.1 k = getProp (deepClone base c).1 k := by
    cases ov with
    | objV oi ofs =>
        simp only [mergeConfig, merge] at h
        exact mergeFields_frame ofs (deepClone base c).1 "" tbl
          (deepClone base c).2 q k (by simpa [ownKeys] using hk) h
    | undefV => simp only [mergeConfig, merge] at h; cases h; rfl
    | null => simp only [mergeConfig, merge] at h; cases h; rfl
    | boolV b => simp only [mergeConfig, merge] at h; cases h; rfl
    | numV n => simp only [mergeConfig, merge] at h; cases h; rfl
    | strV s => simp only [mergeConfig, merge] at h; cases h; rfl
    | dateV i t => simp only [mergeConfig, merge] at h; cases h; rfl
    | arrV i xs => simp only [mergeConfig, merge] at h; cases h; rfl
    | mapV i es => simp only [mergeConfig, merge] at h; cases h; rfl
    | setV i xs => simp only [mergeConfig, merge] at h; cases h; rfl
  refine ⟨hmain, ?_⟩
  rw [hmain]
  exact erase_getProp_deepClone base c k

/-- Witness for claim C10 at a concrete input: key b of the base survives
a merge whose override only has key a. -/
theorem mergeConfig_untouched_outside_override_witness :
    getProp (Val.objV 7 [("a", .numV 9), ("b", .numV 2)]) ("b") =
      getProp (deepClone (.objV 0 [("a", .numV 1), ("b", .numV 2)]) 7).1 ("b") ∧
    erase (getProp (Val.objV 7 [("a", .numV 9), ("b", .numV 2)]) ("b")) =
      erase (getProp (.objV 0 [("a", .numV 1), ("b", .numV 2)]) ("b")) :=
  mergeConfig_untouched_outside_override
    (.objV 0 [("a", .numV 1), ("b", .numV 2)]) (.objV 1 [("a", .numV 9)])
    (fun _ => none) 7 ("b") (.objV 7 [("a", .numV 9), ("b", .numV 2)], 8)
    (by decide) rfl

/-- Claim C8: deepClone copies a Map into a new instance whose entry list
is kept verbatim (so the entry values are not cloned: one-level shallow
copy), while on every value all containers reachable outside Map and Set
interiors are freshly allocated and the structure is preserved up to
identity tags (plain composites and arrays are recursively cloned). -/
theorem deepClone_map_shallow_entries :
    ∀ (c : Nat),
    (∀ (i : Nat) (es : List (Val × Val)),
      deepClone (.mapV i es) c = (.mapV c es, c + 1)) ∧
    (∀ (i : Nat) (es : List (Val × Val)), i < c →
      topId (deepClone (.mapV i es) c).1 ≠ some i) ∧
    (∀ (v : Val) (j : Nat), j ∈ shallowIds (deepClone v c).1 → c ≤ j) ∧
    (∀ v : Val, erase (deepClone v c).1 = erase v) := by
  intro c
  refine ⟨fun i es => rfl, ?_, fun v j hj => shallowIds_deepClone v c j hj,
    fun v => erase_deepClone v c⟩
  intro i es hi he
  simp only [deepClone, topId] at he
  injection he with he2
  omega

/-- Witness for claim C8 at concrete inputs: a map with one entry and an
object holding an array, cloned at counter 5. -/
theorem deepClone_map_shallow_entries_witness :
    deepClone (.mapV 3 [(.numV 1, .objV 0 [("z", .numV 9)])]) 5 =
      (.mapV 5 [(.numV 1, .objV 0 [("z", .numV 9)])], 5 + 1) ∧
    topId (deepClone (.mapV 3 [(.numV 1, .objV 0 [("z", .numV 9)])]) 5).1 ≠
      some 3 ∧
    (5 : Nat) ≤ 6 ∧
    erase (deepClone (.objV 4 [("w", .arrV 2 [])]) 5).1 =
      erase (.objV 4 [("w", .arrV 2 [])]) := by
  obtain ⟨h1, h2, h3, h4⟩ := deepClone_map_shallow_entries 5
  exact ⟨h1 3 [(.numV 1, .objV 0 [("z", .numV 9)])],
    h2 3 [(.numV 1, .objV 0 [("z", .numV 9)])] (by decide),
    h3 (.objV 4 [("w", .arrV 2 [])]) 6 (by decide),
    h4 (.objV 4 [("w", .arrV 2 [])])⟩

/-- Counterexample to claim C5 as stated: merging an empty override into
a base holding a Map yields a result that IS deep-equal to the base, but
the composite stored inside the Map entry is the identical instance
(identity tag 2) in the result and in the input, so the result is not a
distinct instance at every nested composite. -/
theorem mergeConfig_empty_override_shares_inside_map :
    mergeConfig (.objV 0 [("m", .mapV 1 [(.numV 7, .objV 2 [("a", .numV 1)])])])
      (.objV 3 []) (fun _ => none) 10 =
      some (.objV 11 [("m", .mapV 10 [(.numV 7, .objV 2 [("a", .numV 1)])])], 12) ∧
    (deepIds (Val.objV 11
      [("m", .mapV 10 [(.numV 7, .objV 2 [("a", .numV 1)])])])).contains 2 = true ∧
    (deepIds (Val.objV 0
      [("m", .mapV 1 [(.numV 7, .objV 2 [("a", .numV 1)])])])).contains 2 = true :=
  ⟨rfl, rfl, rfl⟩

/-- Claim C5, amended: mergeConfig with an empty composite override
returns exactly a deep clone of the base, which is deep-equal to it, and
every container of the clone outside Map and Set interiors is a fresh
instance (containers stored inside Map or Set values stay shared, as the
counterexample shows); consequently re-merging any merge result with an
empty override is deep-equal to that result (idempotence). -/
theorem mergeConfig_empty_override_deep_equal :
    ∀ (x : Val) (tbl : MergeOptions) (i c : Nat),
    mergeConfig x (.objV i []) tbl c = some (deepClone x c) ∧
    erase (deepClone x c).1 = erase x ∧
    (∀ j ∈ shallowIds (deepClone x c).1, c ≤ j) ∧
    (∀ (base ov : Val) (q : Val × Nat), mergeConfig base ov tbl c = some q →
      ∀ (i2 c2 : Nat), ∃ q2 : Val × Nat,
        mergeConfig q.1 (.objV i2 []) tbl c2 = some q2 ∧
        erase q2.1 = erase q.1) := by
  intro x tbl i c
  refine ⟨rfl, erase_deepClone x c,
    fun j hj => shallowIds_deepClone x c j hj, ?_⟩
  intro base ov q _ i2 c2
  exact ⟨deepClone q.1 c2, rfl, erase_deepClone q.1 c2⟩

/-- Witness for the amended claim C5 at a concrete input, with the inner
hypotheses discharged on the merge of a one-field override. -/
theorem mergeConfig_empty_override_deep_equal_witness :
    mergeConfig (.objV 0 [("a", .numV 1)]) (.objV 3 []) (fun _ => none) 10 =
      some (deepClone (.objV 0 [("a", .numV 1)]) 10) ∧
    erase (deepClone (.objV 0 [("a", .numV 1)]) 10).1 =
      erase (.objV 0 [("a", .numV 1)]) ∧
    (10 : Nat) ≤ 10 ∧
    (∃ q2 : Val × Nat,
      mergeConfig (Val.objV 10 [("a", .numV 1), ("b", .numV 2)]) (.objV 4 [])
        (fun _ => none) 20 = some q2 ∧
      erase q2.1 = erase (Val.objV 10 [("a", .numV 1), ("b", .numV 2)])) := by
  obtain ⟨h1, h2, h3, h4⟩ :=
    mergeConfig_empty_override_deep_equal (.objV 0 [("a", .numV 1)])
      (fun _ => none) 3 10
  refine ⟨h1, h2, h3 10 (by decide), ?_⟩
  exact h4 (.objV 0 [("a", .numV 1)]) (.objV 1 [("b", .numV 2)])
    (.objV 10 [("a", .numV 1), ("b", .numV 2)], 11) rfl 4 20

/-- Counterexample to claim C1 as stated: the composite with identity
tag 2 sits inside a Set element of the base; after a merge it is
reachable from the result with the same identity, so the result shares a
mutable nested container with the base input. -/
theorem mergeConfig_shares_container_inside_set :
    mergeConfig (.objV 0 [("s", .setV 1 [.objV 2 [("a", .numV 1)]])])
      (.objV 3 []) (fun _ => none) 10 =
      some (.objV 11 [("s", .setV 10 [.objV 2 [("a", .numV 1)]])], 12) ∧
    (deepIds (Val.objV 11 [("s", .setV 10 [.objV 2 [("a", .numV 1)]])])).contains 2
      = true ∧
    (deepIds (Val.objV 0 [("s", .setV 1 [.objV 2 [("a", .numV 1)]])])).contains 2
      = true :=
  ⟨rfl, rfl, rfl⟩

/-- Claim C1, amended: for inputs whose identity tags lie below the
allocation counter, every container reachable from the merge result
without passing through Map or Set interiors is freshly allocated, hence
shared with neither the base nor the override; containers reachable only
through Map or Set entry values may be shared, because deepClone copies
Map and Set contents shallowly. -/
theorem mergeConfig_fresh_outside_map_set :
    ∀ (base ov : Val) (tbl : MergeOptions) (c : Nat) (q : Val × Nat),
    idsBelow base c = true → idsBelow ov c = true →
    mergeConfig base ov tbl c = some q →
    ∀ j ∈ shallowIds q.1, ¬ j ∈ deepIds base ∧ ¬ j ∈ deepIds ov := by
  intro base ov tbl c q hb ho h j hj
  simp only [mergeConfig] at h
  have hge : c ≤ j := by
    have ht : ∀ j2 ∈ shallowIds (deepClone base c).1, c ≤ j2 :=
      fun j2 hj2 => shallowIds_deepClone base c j2 hj2
    exact merge_idsGe ov (deepClone base c).1 "" tbl (deepClone base c).2 q c
      ht (deepClone_c_le base c) h j hj
  constructor
  · intro hmem
    have := idsBelow_spec base c hb j hmem
    omega
  · intro hmem
    have := idsBelow_spec ov c ho j hmem
    omega

/-- Witness for the amended claim C1 at a concrete merge of two
one-field objects. -/
theorem mergeConfig_fresh_outside_map_set_witness :
    ¬ (5 : Nat) ∈ deepIds (.objV 0 [("a", .numV 1)]) ∧
    ¬ (5 : Nat) ∈ deepIds (.objV 1 [("b", .numV 2)]) :=
  mergeConfig_fresh_outside_map_set (.objV 0 [("a", .numV 1)])
    (.objV 1 [("b", .numV 2)]) (fun _ => none) 5
    (.objV 5 [("a", .numV 1), ("b", .numV 2)], 6) (by decide) (by decide) rfl
    5 (by decide)

/-- Claim C2: an array value of the override at a top-level key is always
stored wholesale: whatever the strategy table says, the result at that
key is deep-equal to the override array and is a freshly allocated
instance, never an element-wise merge with the base array. -/
theorem mergeConfig_array_always_replaced :
    ∀ (bi oi bj i : Nat) (bfs ofs : List (String × Val)) (ys xs : List Val)
    (tbl : MergeOptions) (c : Nat) (k : String) (q : Val × Nat),
    (ofs.map Prod.fst).Nodup →
    lookupField bfs k = some (.arrV bj ys) →
    lookupField ofs k = some (.arrV i xs) →
    idsBelow (.objV oi ofs) c = true →
    mergeConfig (.objV bi bfs) (.objV oi ofs) tbl c = some q →
    erase (getProp q.1 k) = erase (.arrV i xs) ∧
    topId (getProp q.1 k) ≠ some i := by
  intro bi oi bj i bfs ofs ys xs tbl c k q hnd hlkb hlko hbelow h
  simp only [mergeConfig, merge] at h
  obtain ⟨cw, hcw, hres⟩ := mergeFields_array_key ofs
    (deepClone (.objV bi bfs) c).1 "" tbl (deepClone (.objV bi bfs) c).2 q k
    (.arrV i xs) hnd hlko rfl h
  have hi : i < c := by
    apply idsBelow_spec _ c hbelow
    simp only [deepIds, List.mem_cons]
    exact Or.inr (deepIds_lookupField ofs k (.arrV i xs) hlko i
      (by simp [deepIds]))
  have hc1 : c ≤ (deepClone (.objV bi bfs) c).2 := deepClone_c_le _ c
  have hl : cw ≤ (deepCloneList xs cw).2 := deepCloneList_c_le xs cw
  constructor
  · rw [hres]
    exact erase_deepClone _ _
  · rw [hres]
    simp only [deepClone, topId]
    intro he
    injection he with he2
    omega

/-- Witness for claim C2: base with arr holding one-two-three, override
with arr holding four-five, a safe entry at arr, counter 10. -/
theorem mergeConfig_array_always_replaced_witness :
    erase (getProp (Val.objV 11 [("arr", .arrV 12 [.numV 4, .numV 5])]) ("arr"))
      = erase (.arrV 3 [.numV 4, .numV 5]) ∧
    topId (getProp (Val.objV 11 [("arr", .arrV 12 [.numV 4, .numV 5])]) ("arr"))
      ≠ some 3 :=
  mergeConfig_array_always_replaced 0 2 1 3
    [("arr", .arrV 1 [.numV 1, .numV 2, .numV 3])]
    [("arr", .arrV 3 [.numV 4, .numV 5])]
    [.numV 1, .numV 2, .numV 3] [.numV 4, .numV 5]
    (fun p => if p = "arr" then some safeS else none) 10 ("arr")
    (.objV 11 [("arr", .arrV 12 [.numV 4, .numV 5])], 13)
    (by decide) rfl rfl (by decide) rfl

/-- Claim C7: a null base value at a top-level key with an object-typed,
non-null, non-array override at that key and no replace entry at its path
is replaced wholesale by a fresh deep clone of the override composite;
the merge never recurses into the null. -/
theorem mergeConfig_null_base_wholesale :
    ∀ (bi oi j : Nat) (bfs ofs gs : List (String × Val)) (tbl : MergeOptions)
    (c : Nat) (k : String) (q : Val × Nat),
    (ofs.map Prod.fst).Nodup →
    lookupField bfs k = some .null →
    lookupField ofs k = some (.objV j gs) →
    tbl k ≠ some replaceS →
    tbl k ≠ some safeS →
    idsBelow (.objV oi ofs) c = true →
    mergeConfig (.objV bi bfs) (.objV oi ofs) tbl c = some q →
    erase (getProp q.1 k) = erase (.objV j gs) ∧
    topId (getProp q.1 k) ≠ some j := by
  intro bi oi j bfs ofs gs tbl c k q hnd hlkb hlko hrep hsafe hbelow h
  simp only [mergeConfig, merge] at h
  have hnullc : getProp (deepClone (.objV bi bfs) c).1 k = Val.null := by
    apply erase_eq_null
    rw [erase_getProp_deepClone]
    simp [getProp, hlkb, erase]
  have hrep2 : tbl (pathJoin ("") k) ≠ some replaceS := by
    simpa [pathJoin] using hrep
  obtain ⟨cw, hcw, hres⟩ := mergeFields_null_mismatch ofs
    (deepClone (.objV bi bfs) c).1 "" tbl (deepClone (.objV bi bfs) c).2 q k
    (.objV j gs) hnd hlko rfl rfl rfl hnullc hrep2 h
  have hi : j < c := by
    apply idsBelow_spec _ c hbelow
    simp only [deepIds, List.mem_cons]
    exact Or.inr (deepIds_lookupField ofs k (.objV j gs) hlko j
      (by simp [deepIds]))
  have hc1 : c ≤ (deepClone (.objV bi bfs) c).2 := deepClone_c_le _ c
  have hl : cw ≤ (deepCloneFields gs cw).2 := deepCloneFields_c_le gs cw
  constructor
  · rw [hres]
    exact erase_deepClone _ _
  · rw [hres]
    simp only [deepClone, topId]
    intro he
    injection he with he2
    omega

/-- Witness for claim C7: base holds null at key x, the override holds a
composite there, the table carries a merge entry at x. -/
theorem mergeConfig_null_base_wholesale_witness :
    erase (getProp (Val.objV 8 [("x", .objV 9 [("a", .numV 5)]),
      ("z", .numV 3)]) ("x")) = erase (.objV 2 [("a", .numV 5)]) ∧
    topId (getProp (Val.objV 8 [("x", .objV 9 [("a", .numV 5)]),
      ("z", .numV 3)]) ("x")) ≠ some 2 :=
  mergeConfig_null_base_wholesale 0 1 2
    [("x", .null), ("z", .numV 3)] [("x", .objV 2 [("a", .numV 5)])]
    [("a", .numV 5)] (fun p => if p = "x" then some mergeS else none) 8 ("x")
    (.objV 8 [("x", .objV 9 [("a", .numV 5)]), ("z", .numV 3)], 10)
    (by decide) rfl rfl (by decide) (by decide) (by decide) rfl

/-- Counterexample to claim C4 as stated: the table assigns safe to the
path x.y and the override holds undefined exactly there, yet a replace
entry at the ancestor path x makes the merge clone the whole override
composite, so the result carries undefined at x.y instead of the base
value one: the base value at the safe path is not left untouched for
every strategy table. -/
theorem mergeConfig_safe_shadowed_by_ancestor_replace :
    ((fun p => if p = "x" then some replaceS else
      if p = "x.y" then some safeS else none : MergeOptions)) ("x.y") =
      some safeS ∧
    getProp (getProp (Val.objV 2 [("x", .objV 3 [("y", .undefV)])]) ("x")) ("y")
      = .undefV ∧
    mergeConfig (.objV 0 [("x", .objV 1 [("y", .numV 1)])])
      (.objV 2 [("x", .objV 3 [("y", .undefV)])])
      (fun p => if p = "x" then some replaceS else
        if p = "x.y" then some safeS else none) 10 =
      some (.objV 11 [("x", .objV 12 [("y", .undefV)])], 13) ∧
    getProp (getProp (Val.objV 11 [("x", .objV 12 [("y", .undefV)])]) ("x")) ("y")
      = .undefV ∧
    getProp (getProp (Val.objV 0 [("x", .objV 1 [("y", .numV 1)])]) ("x")) ("y")
      = .numV 1 :=
  ⟨rfl, rfl, rfl, rfl, rfl⟩

/-- Claim C4, amended: at a top-level key carrying a safe entry whose
override value is undefined, the merge leaves the base value at that key
untouched (up to the identity-refreshing clone of the base); the
guarantee at deeper paths holds only when no ancestor strategy diverts
the walk, as the counterexample with a replace entry at the ancestor
shows.  The spec example mergeConfig of one-two with undefined under safe
is the witness. -/
theorem mergeConfig_safe_skip_top :
    ∀ (base : Val) (oi : Nat) (ofs : List (String × Val)) (tbl : MergeOptions)
    (c : Nat) (k : String) (q : Val × Nat),
    (ofs.map Prod.fst).Nodup →
    lookupField ofs k = some .undefV →
    tbl k = some safeS →
    mergeConfig base (.objV oi ofs) tbl c = some q →
    erase (getProp q.1 k) = erase (getProp base k) := by
  intro base oi ofs tbl c k q hnd hlk htbl h
  simp only [mergeConfig, merge] at h
  have htbl2 : tbl (pathJoin ("") k) = some safeS := by
    simpa [pathJoin] using htbl
  rw [mergeFields_safe_skip ofs (deepClone base c).1 "" tbl
    (deepClone base c).2 q k hnd hlk htbl2 h]
  exact erase_getProp_deepClone base c k

/-- Witness for the amended claim C4: the spec example, where a is one
and b is two in the base, the override holds undefined at a, and the
table assigns safe to a; the result keeps a equal to one. -/
theorem mergeConfig_safe_skip_top_witness :
    erase (getProp (Val.objV 10 [("a", .numV 1), ("b", .numV 2)]) ("a")) =
    erase (getProp (Val.objV 0 [("a", .numV 1), ("b", .numV 2)]) ("a")) :=
  mergeConfig_safe_skip_top (.objV 0 [("a", .numV 1), ("b", .numV 2)]) 1
    [("a", .undefV)] (fun p => if p = "a" then some safeS else none) 10 ("a")
    (.objV 10 [("a", .numV 1), ("b", .numV 2)], 11)
    (by decide) rfl (by decide) rfl

/-- Counterexample to claim C3 as stated: with a malformed entry bogus at
path a and an override holding undefined at a, the merge assigns
undefined (the strategy-is-absent test fails), while with the malformed
entry removed the undefined value is suppressed and the base value one
survives: the two results differ. -/
theorem mergeConfig_malformed_entry_not_ignored :
    ¬ (mergeConfig (.objV 0 [("a", .numV 1)]) (.objV 1 [("a", .undefV)])
        (fun p => if p = "a" then some ("bogus") else none) 10 =
      mergeConfig (.objV 0 [("a", .numV 1)]) (.objV 1 [("a", .undefV)])
        (sanitize (fun p => if p = "a" then some ("bogus") else none)) 10) := by
  intro h
  rw [show mergeConfig (.objV 0 [("a", .numV 1)]) (.objV 1 [("a", .undefV)])
        (fun p => if p = "a" then some ("bogus") else none) 10 =
      some (.objV 10 [("a", .undefV)], 11) from rfl] at h
  rw [show mergeConfig (.objV 0 [("a", .numV 1)]) (.objV 1 [("a", .undefV)])
        (sanitize (fun p => if p = "a" then some ("bogus") else none)) 10 =
      some (.objV 10 [("a", .numV 1)], 11) from rfl] at h
  simp at h

/-- Claim C3, amended: a strategy table behaves exactly as if its
malformed entries were removed, provided the override holds no undefined
value at a path carrying a malformed entry (guard strategyOk); when the
override value at such a path is undefined the behaviours differ, as the
counterexample shows: the malformed entry defeats the default
undefined-suppression and undefined is written. -/
theorem mergeConfig_sanitize_equiv :
    ∀ (config newConfig : Val) (tbl : MergeOptions) (c : Nat),
    strategyOk tbl "" newConfig = true →
    mergeConfig config newConfig tbl c =
    mergeConfig config newConfig (sanitize tbl) c := by
  intro config newConfig tbl c hok
  simp only [mergeConfig]
  exact (merge_sanitize newConfig (deepClone config c).1 "" tbl
    (deepClone config c).2 hok).symm

/-- Witness for the amended claim C3: a malformed entry at path a with a
defined override value there gives the same result as the sanitized
table. -/
theorem mergeConfig_sanitize_equiv_witness :
    mergeConfig (.objV 0 [("a", .numV 1)]) (.objV 1 [("a", .numV 2)])
      (fun p => if p = "a" then some ("bogus") else none) 5 =
    mergeConfig (.objV 0 [("a", .numV 1)]) (.objV 1 [("a", .numV 2)])
      (sanitize (fun p => if p = "a" then some ("bogus") else none)) 5 :=
  mergeConfig_sanitize_equiv (.objV 0 [("a", .numV 1)])
    (.objV 1 [("a", .numV 2)])
    (fun p => if p = "a" then some ("bogus") else none) 5 (by decide)
